import Mathlib

/-!
Verification of the parent-resolution and propagation engine of the
obsidian-parentlink plugin (src/src/main.ts).  The embedding below mirrors the
two core routines: the single-document routine updateParentLink
(main.ts lines 545-638) and the subtree cascade handleFolderRename
(main.ts lines 654-688), over an explicit vault snapshot and an explicit
metadata state.  String operations follow the JavaScript semantics the source
relies on: startsWith is a literal prefix test, toLowerCase is per-character
lowering, and String.replace with a plain-string pattern removes only the
first occurrence.
-/

namespace ParentLink

/-! ## JavaScript string primitives -/

/-- JavaScript startsWith: literal prefix test on the character sequence. -/
def jsStartsWith (s pre : String) : Bool := pre.data.isPrefixOf s.data

/-- JavaScript toLowerCase (ASCII case folding, which is all the source needs). -/
def jsToLower (s : String) : String := ⟨s.data.map Char.toLower⟩

/-- The character sequence of the pattern literal ".md" used at main.ts:623. -/
def mdPat : List Char := ['.', 'm', 'd']

/-- Remove the first occurrence of ".md" from a character list; identity when
the pattern does not occur. -/
def removeFirstOcc (l : List Char) : List Char :=
  match l with
  | [] => []
  | c :: cs => if mdPat.isPrefixOf (c :: cs) then cs.drop 2 else c :: removeFirstOcc cs

/-- JavaScript name.replace(".md", ""): removes only the FIRST occurrence of
".md" (main.ts:623 computes the wikilink body this way). -/
def replaceFirstMd (s : String) : String := ⟨removeFirstOcc s.data⟩

/-! ## Data model (the fields of the host tree that the core reads) -/

/-- The fields the source reads from a grandparent folder object:
its path and its name (main.ts:587-594). -/
structure FolderRef where
  path : String
  name : String
deriving DecidableEq

/-- A containing folder as the source sees it: path, name, an optional
reference to its own parent folder, and the isRoot flag. -/
structure TFolder where
  path : String
  name : String
  parentRef : Option FolderRef
  isRoot : Bool
deriving DecidableEq

/-- A markdown document: path, full file name, base name, and an optional
containing folder (null for documents at the tree root). -/
structure TFile where
  path : String
  name : String
  basename : String
  parent : Option TFolder
deriving DecidableEq

/-- The plugin settings record (main.ts:435-440). -/
structure Settings where
  enabled : Bool
  detailedLogs : Bool
  lastRefreshedFolder : Option String
  allowedPaths : List String

/-- A frontmatter map, as an association list of key-value pairs. -/
abbrev Frontmatter := List (String × String)

/-- Read a frontmatter key (first binding wins). -/
def getFM (fm : Frontmatter) (k : String) : Option String :=
  match fm with
  | [] => none
  | kv :: rest => if kv.1 == k then some kv.2 else getFM rest k

/-- JavaScript object assignment frontmatter[k] = v: replaces the value in
place when the key exists, appends the binding otherwise. -/
def setFM (fm : Frontmatter) (k v : String) : Frontmatter :=
  match fm with
  | [] => [(k, v)]
  | kv :: rest => if kv.1 == k then (k, v) :: rest else kv :: setFM rest k v

/-- The stored metadata of every document, indexed by document path. -/
abbrev MetaState := String → Frontmatter

/-- Replace the frontmatter stored for one path. -/
def writeState (s : MetaState) (p : String) (fm : Frontmatter) : MetaState :=
  fun q => if q = p then fm else s q

/-! ## Observable events of one run -/

/-- Observable events: updateParentLink being entered for a path, the
metadata-writer primitive being invoked, and an error notification. -/
inductive Ev where
  | call (path : String)
  | write (path : String) (value : String)
  | notice (path : String)
deriving DecidableEq

/-- Which exit branch of updateParentLink was taken; each constructor matches
one of the distinct log messages of the source. -/
inductive Outcome where
  | notAllowed
  | noParentFolder
  | caseMismatch
  | noMatchingParentNote
  | alreadyCorrect
  | wroteOk
  | writeFailed
deriving DecidableEq

structure UPLResult where
  state : MetaState
  trace : List Ev
  outcome : Outcome

/-! ## The embedded source routines -/

/-- The allow-list membership test of main.ts:549-553:
file.path.startsWith(p) or (file.parent?.path or empty).startsWith(p)
for some configured entry p. -/
def isAllowedPath (allowedPaths : List String) (file : TFile) : Bool :=
  allowedPaths.any (fun ap =>
    jsStartsWith file.path ap ||
    jsStartsWith ((file.parent.map TFolder.path).getD "") ap)

/-- The parent-note search of main.ts:585-608.  For a folder note (basename
equal to the containing folder name) the search targets the grandparent
folder; otherwise it targets the containing folder.  The comparison on the
candidate is by base name, containing-folder path, and being a different
document. -/
def findParentNote (vault : List TFile) (file : TFile) (parentFolder : TFolder) :
    Option TFile :=
  if file.basename == parentFolder.name then
    match parentFolder.parentRef with
    | some gp =>
        vault.find? (fun f =>
          f.basename == gp.name &&
          (match f.parent with
           | some pf => pf.path == gp.path
           | none => false) &&
          !(decide (f = file)))
    | none => none
  else
    vault.find? (fun f =>
      f.basename == parentFolder.name &&
      (match f.parent with
       | some pf => pf.path == parentFolder.path
       | none => false) &&
      !(decide (f = file)))

/-- updateParentLink (main.ts:545-638): allow-list gate, parent-folder check,
case-mismatch guard, parent-note search, no-op check against the current
frontmatter, and the guarded write through the frontmatter-processing
primitive whose failure is caught and surfaced as a notice. -/
def updateParentLink (cfg : Settings) (vault : List TFile) (failSet : String → Bool)
    (s : MetaState) (file : TFile) : UPLResult :=
  if cfg.allowedPaths.length > 0 && !(isAllowedPath cfg.allowedPaths file) then
    ⟨s, [Ev.call file.path], Outcome.notAllowed⟩
  else
    match file.parent with
    | none => ⟨s, [Ev.call file.path], Outcome.noParentFolder⟩
    | some parentFolder =>
      if jsToLower file.basename == jsToLower parentFolder.name &&
         !(file.basename == parentFolder.name) then
        ⟨s, [Ev.call file.path], Outcome.caseMismatch⟩
      else
        match findParentNote vault file parentFolder with
        | none => ⟨s, [Ev.call file.path], Outcome.noMatchingParentNote⟩
        | some parentNote =>
          let currentParent := getFM (s file.path) "parent"
          let newParent := "[[" ++ replaceFirstMd parentNote.name ++ "]]"
          if currentParent = some newParent then
            ⟨s, [Ev.call file.path], Outcome.alreadyCorrect⟩
          else
            if failSet file.path then
              ⟨s, [Ev.call file.path, Ev.write file.path newParent, Ev.notice file.path],
               Outcome.writeFailed⟩
            else
              ⟨writeState s file.path (setFM (s file.path) "parent" newParent),
               [Ev.call file.path, Ev.write file.path newParent],
               Outcome.wroteOk⟩

structure CascadeResult where
  state : MetaState
  trace : List Ev

/-- The sequential for-loop of main.ts:671-673: run updateParentLink on each
file in order, threading the metadata state. -/
def runList (cfg : Settings) (vault : List TFile) (failSet : String → Bool)
    (s : MetaState) : List TFile → CascadeResult
  | [] => ⟨s, []⟩
  | f :: fs =>
    let r := updateParentLink cfg vault failSet s f
    let rest := runList cfg vault failSet r.state fs
    ⟨rest.state, r.trace ++ rest.trace⟩

/-- The subtree filter of main.ts:660-668: every file when the folder is the
root, otherwise a literal prefix test on folder.path plus a slash. -/
def cascadePred (folder : TFolder) (f : TFile) : Bool :=
  if folder.isRoot then true else jsStartsWith f.path (folder.path ++ "/")

/-- The folder-note lookup of main.ts:677-679. -/
def folderNotePred (folder : TFolder) (f : TFile) : Bool :=
  f.basename == folder.name &&
  (match f.parent with
   | some pf => pf.path == folder.path
   | none => false)

/-- handleFolderRename (main.ts:654-688): filter the vault to the subtree,
run updateParentLink on each file in order, then (unless the folder is the
root) run it once more on the folder note if one exists. -/
def handleFolderRename (cfg : Settings) (vault : List TFile) (failSet : String → Bool)
    (s : MetaState) (folder : TFolder) : CascadeResult :=
  let filesInFolder := vault.filter (cascadePred folder)
  let r := runList cfg vault failSet s filesInFolder
  if folder.isRoot then r
  else
    match vault.find? (folderNotePred folder) with
    | none => r
    | some folderNote =>
      let r2 := updateParentLink cfg vault failSet r.state folderNote
      ⟨r2.state, r.trace ++ r2.trace⟩

/-! ## Derived views used by the statements -/

/-- The value updateParentLink would want in the parent field, or none when a
pre-write branch skips the document; a direct restatement of the branch
structure up to the no-op check. -/
def desiredValue (cfg : Settings) (vault : List TFile) (file : TFile) : Option String :=
  if cfg.allowedPaths.length > 0 && !(isAllowedPath cfg.allowedPaths file) then none
  else
    match file.parent with
    | none => none
    | some parentFolder =>
      if jsToLower file.basename == jsToLower parentFolder.name &&
         !(file.basename == parentFolder.name) then none
      else
        (findParentNote vault file parentFolder).map
          (fun pn => "[[" ++ replaceFirstMd pn.name ++ "]]")

/-- The sequence of documents entered by updateParentLink, read off a trace. -/
def callsOf (t : List Ev) : List String :=
  t.filterMap (fun e => match e with | Ev.call p => some p | _ => none)

/-- How many times the metadata-writer primitive was invoked for a path. -/
def countWrites (t : List Ev) (p : String) : Nat :=
  (t.filter (fun e => match e with | Ev.write q _ => q == p | _ => false)).length

/-- The enumeration the specification describes for a cascade: the documents
whose path lies within the folder, in vault order, followed by the folder
note (when not at the root and one exists). -/
def cascadeCallsSpec (vault : List TFile) (folder : TFolder) : List String :=
  (vault.filter (cascadePred folder)).map TFile.path ++
    (if folder.isRoot then []
     else
       match vault.find? (folderNotePred folder) with
       | some fn => [fn.path]
       | none => [])

/-- No write failures at all: the metadata writer always succeeds. -/
def noFail : String → Bool := fun _ => false

/-- The writer fails exactly for one document path. -/
def failOnly (q : String) : String → Bool := fun p => p == q

/-! ## Frontmatter and state lemmas -/

theorem getFM_setFM_self (fm : Frontmatter) (k v : String) :
    getFM (setFM fm k v) k = some v := by
  induction fm with
  | nil => simp [getFM, setFM]
  | cons kv fms ih =>
    by_cases hk : (kv.1 == k) = true
    · simp [getFM, setFM, hk]
    · simp [getFM, setFM, hk, ih]

theorem getFM_setFM_ne (fm : Frontmatter) (k v k2 : String) (hne : k2 ≠ k) :
    getFM (setFM fm k v) k2 = getFM fm k2 := by
  have hkk2 : (k == k2) = false := by
    simp only [beq_eq_false_iff_ne, ne_eq]
    exact fun hc => hne hc.symm
  induction fm with
  | nil => simp [getFM, setFM, hkk2]
  | cons kv fms ih =>
    by_cases hk : (kv.1 == k) = true
    · have hk2 : (kv.1 == k2) = false := by
        have : kv.1 = k := by simpa using hk
        simp only [this, beq_eq_false_iff_ne, ne_eq]
        exact fun hc => hne hc.symm
      simp [getFM, setFM, hk, hkk2, hk2]
    · simp [getFM, setFM, hk, ih]

theorem writeState_self (s : MetaState) (p : String) (fm : Frontmatter) :
    writeState s p fm p = fm := by
  simp [writeState]

theorem writeState_ne (s : MetaState) (p : String) (fm : Frontmatter)
    (q : String) (hq : q ≠ p) : writeState s p fm q = s q := by
  simp [writeState, hq]

/-! ## Branch characterization of updateParentLink -/

theorem upl_state_eq (cfg : Settings) (vault : List TFile) (failSet : String → Bool)
    (s : MetaState) (file : TFile) :
    (updateParentLink cfg vault failSet s file).state =
      match desiredValue cfg vault file with
      | none => s
      | some v =>
        if getFM (s file.path) "parent" = some v then s
        else if failSet file.path then s
        else writeState s file.path (setFM (s file.path) "parent" v) := by
  unfold updateParentLink desiredValue
  cases hgate : (decide (cfg.allowedPaths.length > 0) && !isAllowedPath cfg.allowedPaths file) with
  | true => simp
  | false =>
    cases hp : file.parent with
    | none => simp
    | some pf =>
      by_cases hcase : (jsToLower file.basename == jsToLower pf.name &&
          !(file.basename == pf.name)) = true
      · simp [hcase]
      · cases hf : findParentNote vault file pf with
        | none => simp [hcase, hf]
        | some pn =>
          by_cases heq : getFM (s file.path) "parent" =
              some ("[[" ++ replaceFirstMd pn.name ++ "]]")
          · simp [hcase, hf, heq]
          · cases hfail : failSet file.path with
            | true => simp [hcase, hf, heq, hfail]
            | false => simp [hcase, hf, heq, hfail]

theorem upl_trace_eq (cfg : Settings) (vault : List TFile) (failSet : String → Bool)
    (s : MetaState) (file : TFile) :
    (updateParentLink cfg vault failSet s file).trace =
      Ev.call file.path ::
        (match desiredValue cfg vault file with
         | none => []
         | some v =>
           if getFM (s file.path) "parent" = some v then []
           else Ev.write file.path v ::
             (if failSet file.path then [Ev.notice file.path] else [])) := by
  unfold updateParentLink desiredValue
  cases hgate : (decide (cfg.allowedPaths.length > 0) && !isAllowedPath cfg.allowedPaths file) with
  | true => simp
  | false =>
    cases hp : file.parent with
    | none => simp
    | some pf =>
      by_cases hcase : (jsToLower file.basename == jsToLower pf.name &&
          !(file.basename == pf.name)) = true
      · simp [hcase]
      · cases hf : findParentNote vault file pf with
        | none => simp [hcase, hf]
        | some pn =>
          by_cases heq : getFM (s file.path) "parent" =
              some ("[[" ++ replaceFirstMd pn.name ++ "]]")
          · simp [hcase, hf, heq]
          · cases hfail : failSet file.path with
            | true => simp [hcase, hf, heq, hfail]
            | false => simp [hcase, hf, heq, hfail]

theorem upl_state_frame (cfg : Settings) (vault : List TFile) (failSet : String → Bool)
    (s : MetaState) (file : TFile) (p : String) (hp : p ≠ file.path) :
    (updateParentLink cfg vault failSet s file).state p = s p := by
  rw [upl_state_eq]
  cases desiredValue cfg vault file with
  | none => rfl
  | some v =>
    by_cases heq : getFM (s file.path) "parent" = some v
    · simp [heq]
    · cases hfail : failSet file.path with
      | true => simp [heq, hfail]
      | false => simp [heq, hfail, writeState_ne s file.path _ p hp]

theorem upl_state_fail (cfg : Settings) (vault : List TFile) (failSet : String → Bool)
    (s : MetaState) (file : TFile) (hfail : failSet file.path = true) :
    (updateParentLink cfg vault failSet s file).state = s := by
  rw [upl_state_eq]
  cases desiredValue cfg vault file with
  | none => rfl
  | some v =>
    by_cases heq : getFM (s file.path) "parent" = some v
    · simp [heq]
    · simp [heq, hfail]

theorem upl_calls (cfg : Settings) (vault : List TFile) (failSet : String → Bool)
    (s : MetaState) (file : TFile) :
    callsOf (updateParentLink cfg vault failSet s file).trace = [file.path] := by
  rw [upl_trace_eq]
  cases desiredValue cfg vault file with
  | none => rfl
  | some v =>
    by_cases heq : getFM (s file.path) "parent" = some v
    · simp [callsOf, heq]
    · cases hfail : failSet file.path <;> simp [callsOf, heq, hfail]

theorem upl_countWrites_ne (cfg : Settings) (vault : List TFile) (failSet : String → Bool)
    (s : MetaState) (file : TFile) (p : String) (hp : p ≠ file.path) :
    countWrites (updateParentLink cfg vault failSet s file).trace p = 0 := by
  have hb : (file.path == p) = false := by
    simp only [beq_eq_false_iff_ne, ne_eq]
    exact fun hc => hp hc.symm
  rw [upl_trace_eq]
  cases desiredValue cfg vault file with
  | none => rfl
  | some v =>
    by_cases heq : getFM (s file.path) "parent" = some v
    · simp [countWrites, heq]
    · cases hfail : failSet file.path <;> simp [countWrites, heq, hfail, hb]

theorem upl_countWrites_self (cfg : Settings) (vault : List TFile) (failSet : String → Bool)
    (s : MetaState) (file : TFile) :
    countWrites (updateParentLink cfg vault failSet s file).trace file.path =
      match desiredValue cfg vault file with
      | none => 0
      | some v => if getFM (s file.path) "parent" = some v then 0 else 1 := by
  rw [upl_trace_eq]
  cases desiredValue cfg vault file with
  | none => rfl
  | some v =>
    by_cases heq : getFM (s file.path) "parent" = some v
    · simp [countWrites, heq]
    · cases hfail : failSet file.path <;> simp [countWrites, heq, hfail]

theorem upl_write_mem (cfg : Settings) (vault : List TFile) (failSet : String → Bool)
    (s : MetaState) (file : TFile) (p v : String)
    (h : Ev.write p v ∈ (updateParentLink cfg vault failSet s file).trace) :
    p = file.path ∧ desiredValue cfg vault file = some v ∧
      getFM (s file.path) "parent" ≠ some v := by
  rw [upl_trace_eq] at h
  cases hd : desiredValue cfg vault file with
  | none => rw [hd] at h; simp at h
  | some w =>
    rw [hd] at h
    by_cases heq : getFM (s file.path) "parent" = some w
    · simp [heq] at h
    · cases hfail : failSet file.path with
      | true =>
        simp [heq, hfail] at h
        exact ⟨h.1, by rw [h.2], by rw [← h.2] at heq; exact heq⟩
      | false =>
        simp [heq, hfail] at h
        exact ⟨h.1, by rw [h.2], by rw [← h.2] at heq; exact heq⟩

theorem upl_notice_mem (cfg : Settings) (vault : List TFile) (failSet : String → Bool)
    (s : MetaState) (file : TFile) (m : String)
    (h : Ev.notice m ∈ (updateParentLink cfg vault failSet s file).trace) :
    m = file.path ∧ failSet file.path = true := by
  rw [upl_trace_eq] at h
  cases hd : desiredValue cfg vault file with
  | none => rw [hd] at h; simp at h
  | some w =>
    rw [hd] at h
    by_cases heq : getFM (s file.path) "parent" = some w
    · simp [heq] at h
    · cases hfail : failSet file.path with
      | true => simp [heq, hfail] at h; exact ⟨h, rfl⟩
      | false => simp [heq, hfail] at h

theorem upl_notice_intro (cfg : Settings) (vault : List TFile) (failSet : String → Bool)
    (s : MetaState) (file : TFile) (v : String)
    (hd : desiredValue cfg vault file = some v)
    (hne : getFM (s file.path) "parent" ≠ some v)
    (hfail : failSet file.path = true) :
    Ev.notice file.path ∈ (updateParentLink cfg vault failSet s file).trace := by
  rw [upl_trace_eq, hd]
  simp [hne, hfail]

theorem upl_post (cfg : Settings) (vault : List TFile) (failSet : String → Bool)
    (s : MetaState) (file : TFile) (v : String)
    (hd : desiredValue cfg vault file = some v)
    (hfail : failSet file.path = false) :
    getFM ((updateParentLink cfg vault failSet s file).state file.path) "parent" = some v := by
  rw [upl_state_eq, hd]
  by_cases heq : getFM (s file.path) "parent" = some v
  · simp [heq]
  · simp [heq, hfail, writeState_self, getFM_setFM_self]

theorem upl_trace_local (cfg : Settings) (vault : List TFile) (failSet : String → Bool)
    (file : TFile) (s1 s2 : MetaState) (h : s1 file.path = s2 file.path) :
    (updateParentLink cfg vault failSet s1 file).trace =
      (updateParentLink cfg vault failSet s2 file).trace := by
  rw [upl_trace_eq, upl_trace_eq, h]

theorem upl_state_local_self (cfg : Settings) (vault : List TFile) (failSet : String → Bool)
    (file : TFile) (s1 s2 : MetaState) (h : s1 file.path = s2 file.path) :
    (updateParentLink cfg vault failSet s1 file).state file.path =
      (updateParentLink cfg vault failSet s2 file).state file.path := by
  rw [upl_state_eq, upl_state_eq, h]
  cases desiredValue cfg vault file with
  | none => exact h
  | some v =>
    by_cases heq : getFM (s2 file.path) "parent" = some v
    · simp [heq]; exact h
    · cases hfail : failSet file.path with
      | true => simp [heq, hfail]; exact h
      | false => simp [heq, hfail, writeState_self]

theorem upl_outcome_notAllowed_iff (cfg : Settings) (vault : List TFile)
    (failSet : String → Bool) (s : MetaState) (file : TFile) :
    (updateParentLink cfg vault failSet s file).outcome = Outcome.notAllowed ↔
      (decide (cfg.allowedPaths.length > 0) && !isAllowedPath cfg.allowedPaths file) = true := by
  unfold updateParentLink
  cases hgate : (decide (cfg.allowedPaths.length > 0) && !isAllowedPath cfg.allowedPaths file) with
  | true => simp
  | false =>
    cases hp : file.parent with
    | none => simp
    | some pf =>
      by_cases hcase : (jsToLower file.basename == jsToLower pf.name &&
          !(file.basename == pf.name)) = true
      · simp [hcase]
      · cases hf : findParentNote vault file pf with
        | none => simp [hcase, hf]
        | some pn =>
          by_cases heq : getFM (s file.path) "parent" =
              some ("[[" ++ replaceFirstMd pn.name ++ "]]")
          · simp [hcase, hf, heq]
          · cases hfail : failSet file.path <;> simp [hcase, hf, heq, hfail]

theorem upl_congr_fail (cfg : Settings) (vault : List TFile) (fail1 fail2 : String → Bool)
    (s : MetaState) (file : TFile) (hf : fail1 file.path = fail2 file.path) :
    updateParentLink cfg vault fail1 s file = updateParentLink cfg vault fail2 s file := by
  unfold updateParentLink
  rw [hf]

theorem upl_congr_noattempt (cfg : Settings) (vault : List TFile)
    (fail1 fail2 : String → Bool) (s : MetaState) (file : TFile)
    (h : ∀ v, desiredValue cfg vault file = some v →
          getFM (s file.path) "parent" = some v) :
    updateParentLink cfg vault fail1 s file = updateParentLink cfg vault fail2 s file := by
  unfold updateParentLink
  unfold desiredValue at h
  cases hgate : (decide (cfg.allowedPaths.length > 0) && !isAllowedPath cfg.allowedPaths file) with
  | true => simp
  | false =>
    cases hp : file.parent with
    | none => simp
    | some pf =>
      by_cases hcase : (jsToLower file.basename == jsToLower pf.name &&
          !(file.basename == pf.name)) = true
      · simp [hcase]
      · cases hfind : findParentNote vault file pf with
        | none => simp [hcase, hfind]
        | some pn =>
          rw [hgate, hp] at h
          simp only [Bool.false_eq_true, if_false, hcase, hfind, Option.map_some'] at h
          have heq := h ("[[" ++ replaceFirstMd pn.name ++ "]]") rfl
          simp [hcase, hfind, heq]

/-! ## Trace bookkeeping -/

theorem callsOf_append (t1 t2 : List Ev) :
    callsOf (t1 ++ t2) = callsOf t1 ++ callsOf t2 := by
  simp [callsOf]

theorem countWrites_append (t1 t2 : List Ev) (p : String) :
    countWrites (t1 ++ t2) p = countWrites t1 p + countWrites t2 p := by
  simp [countWrites]

theorem countWrites_pos_mem (t : List Ev) (p : String) (h : 1 ≤ countWrites t p) :
    ∃ v, Ev.write p v ∈ t := by
  induction t with
  | nil => simp [countWrites] at h
  | cons e rest ih =>
    cases e with
    | call m =>
      simp only [countWrites, List.filter_cons] at h
      obtain ⟨v, hv⟩ := ih h
      exact ⟨v, List.mem_cons_of_mem _ hv⟩
    | notice m =>
      simp only [countWrites, List.filter_cons] at h
      obtain ⟨v, hv⟩ := ih h
      exact ⟨v, List.mem_cons_of_mem _ hv⟩
    | write m w =>
      cases hm : (m == p) with
      | true =>
        have : m = p := by simpa using hm
        exact ⟨w, by rw [this]; exact List.mem_cons_self _ _⟩
      | false =>
        simp only [countWrites, List.filter_cons, hm] at h
        obtain ⟨v, hv⟩ := ih h
        exact ⟨v, List.mem_cons_of_mem _ hv⟩

/-! ## Sequential-loop lemmas -/

theorem runList_trace_calls (cfg : Settings) (vault : List TFile) (failSet : String → Bool) :
    ∀ (fs : List TFile) (s : MetaState),
      callsOf (runList cfg vault failSet s fs).trace = fs.map TFile.path := by
  intro fs
  induction fs with
  | nil => intro s; rfl
  | cons f fs ih =>
    intro s
    simp only [runList, List.map_cons]
    rw [callsOf_append, upl_calls, ih]
    rfl

theorem runList_state_frame (cfg : Settings) (vault : List TFile) (failSet : String → Bool) :
    ∀ (fs : List TFile) (s : MetaState) (p : String), p ∉ fs.map TFile.path →
      (runList cfg vault failSet s fs).state p = s p := by
  intro fs
  induction fs with
  | nil => intro s p _; rfl
  | cons f fs ih =>
    intro s p hp
    simp only [List.map_cons, List.mem_cons] at hp
    push_neg at hp
    simp only [runList]
    rw [ih _ p hp.2]
    exact upl_state_frame cfg vault failSet s f p hp.1

theorem runList_countWrites_notmem (cfg : Settings) (vault : List TFile)
    (failSet : String → Bool) :
    ∀ (fs : List TFile) (s : MetaState) (p : String), p ∉ fs.map TFile.path →
      countWrites (runList cfg vault failSet s fs).trace p = 0 := by
  intro fs
  induction fs with
  | nil => intro s p _; rfl
  | cons f fs ih =>
    intro s p hp
    simp only [List.map_cons, List.mem_cons] at hp
    push_neg at hp
    simp only [runList]
    rw [countWrites_append, upl_countWrites_ne cfg vault failSet s f p hp.1, ih _ p hp.2]

theorem runList_state_mem (cfg : Settings) (vault : List TFile) (failSet : String → Bool) :
    ∀ (fs : List TFile) (s : MetaState) (f : TFile),
      (fs.map TFile.path).Nodup → f ∈ fs →
      (runList cfg vault failSet s fs).state f.path =
        (updateParentLink cfg vault failSet s f).state f.path := by
  intro fs
  induction fs with
  | nil => intro s f _ hf; simp at hf
  | cons g gs ih =>
    intro s f hnd hf
    simp only [List.map_cons, List.nodup_cons] at hnd
    simp only [runList]
    rcases List.mem_cons.mp hf with hfg | hfgs
    · subst hfg
      exact runList_state_frame cfg vault failSet gs _ f.path hnd.1
    · have hne : f.path ≠ g.path := by
        intro hc
        exact hnd.1 (hc ▸ List.mem_map_of_mem TFile.path hfgs)
      rw [ih _ f hnd.2 hfgs]
      exact upl_state_local_self cfg vault failSet f _ s
        (upl_state_frame cfg vault failSet s g f.path hne)

theorem runList_countWrites_mem (cfg : Settings) (vault : List TFile)
    (failSet : String → Bool) :
    ∀ (fs : List TFile) (s : MetaState) (f : TFile),
      (fs.map TFile.path).Nodup → f ∈ fs →
      countWrites (runList cfg vault failSet s fs).trace f.path =
        countWrites (updateParentLink cfg vault failSet s f).trace f.path := by
  intro fs
  induction fs with
  | nil => intro s f _ hf; simp at hf
  | cons g gs ih =>
    intro s f hnd hf
    simp only [List.map_cons, List.nodup_cons] at hnd
    simp only [runList]
    rw [countWrites_append]
    rcases List.mem_cons.mp hf with hfg | hfgs
    · subst hfg
      rw [runList_countWrites_notmem cfg vault failSet gs _ f.path hnd.1]
      simp
    · have hne : f.path ≠ g.path := by
        intro hc
        exact hnd.1 (hc ▸ List.mem_map_of_mem TFile.path hfgs)
      rw [upl_countWrites_ne cfg vault failSet s g f.path hne, ih _ f hnd.2 hfgs]
      have hloc := upl_trace_local cfg vault failSet f _ s
        (upl_state_frame cfg vault failSet s g f.path hne)
      rw [hloc]
      simp

theorem runList_notice_mem (cfg : Settings) (vault : List TFile) (failSet : String → Bool) :
    ∀ (fs : List TFile) (s : MetaState) (m : String),
      Ev.notice m ∈ (runList cfg vault failSet s fs).trace →
      ∃ f ∈ fs, m = f.path ∧ failSet f.path = true := by
  intro fs
  induction fs with
  | nil => intro s m hm; simp [runList] at hm
  | cons g gs ih =>
    intro s m hm
    simp only [runList] at hm
    rcases List.mem_append.mp hm with hm1 | hm2
    · obtain ⟨h1, h2⟩ := upl_notice_mem cfg vault failSet s g m hm1
      exact ⟨g, List.mem_cons_self _ _, h1, h2⟩
    · obtain ⟨f, hf, h1, h2⟩ := ih _ m hm2
      exact ⟨f, List.mem_cons_of_mem _ hf, h1, h2⟩

/-! ## Failure-isolation lemmas: a run whose writer fails exactly at q -/

theorem runList_failq_state_q (cfg : Settings) (vault : List TFile) (q : String) :
    ∀ (fs : List TFile) (s1 : MetaState),
      (runList cfg vault (failOnly q) s1 fs).state q = s1 q := by
  intro fs
  induction fs with
  | nil => intro s1; rfl
  | cons f fs ih =>
    intro s1
    simp only [runList]
    rw [ih]
    by_cases hpq : f.path = q
    · rw [upl_state_fail cfg vault (failOnly q) s1 f (by simp [failOnly, hpq])]
    · exact upl_state_frame cfg vault (failOnly q) s1 f q (fun hc => hpq hc.symm)

theorem runList_agree (cfg : Settings) (vault : List TFile) (q : String) :
    ∀ (fs : List TFile) (s1 s0 : MetaState),
      (∀ p, p ≠ q → s1 p = s0 p) →
      ∀ p, p ≠ q →
        (runList cfg vault (failOnly q) s1 fs).state p =
          (runList cfg vault noFail s0 fs).state p := by
  intro fs
  induction fs with
  | nil => intro s1 s0 h p hp; exact h p hp
  | cons f fs ih =>
    intro s1 s0 h p hp
    simp only [runList]
    refine ih _ _ ?_ p hp
    intro r hr
    by_cases hpq : f.path = q
    · rw [upl_state_fail cfg vault (failOnly q) s1 f (by simp [failOnly, hpq])]
      rw [upl_state_frame cfg vault noFail s0 f r (by rw [hpq]; exact hr)]
      exact h r hr
    · by_cases hrf : r = f.path
      · subst hrf
        have hread : s1 f.path = s0 f.path := h f.path hpq
        have hfe : failOnly q f.path = noFail f.path := by simp [failOnly, noFail, hpq]
        rw [upl_congr_fail cfg vault (failOnly q) noFail s1 f hfe]
        exact upl_state_local_self cfg vault noFail f s1 s0 hread
      · rw [upl_state_frame cfg vault (failOnly q) s1 f r hrf,
          upl_state_frame cfg vault noFail s0 f r hrf]
        exact h r hr

theorem runList_no_notice_eq (cfg : Settings) (vault : List TFile) (q : String) :
    ∀ (fs : List TFile) (s : MetaState),
      Ev.notice q ∉ (runList cfg vault (failOnly q) s fs).trace →
      runList cfg vault noFail s fs = runList cfg vault (failOnly q) s fs := by
  intro fs
  induction fs with
  | nil => intro s _; rfl
  | cons f fs ih =>
    intro s hno
    have hno1 : Ev.notice q ∉ (updateParentLink cfg vault (failOnly q) s f).trace := by
      intro hm
      exact hno (by simp only [runList]; exact List.mem_append.mpr (Or.inl hm))
    have hno2 : Ev.notice q ∉
        (runList cfg vault (failOnly q)
          (updateParentLink cfg vault (failOnly q) s f).state fs).trace := by
      intro hm
      exact hno (by simp only [runList]; exact List.mem_append.mpr (Or.inr hm))
    have hhead : updateParentLink cfg vault noFail s f =
        updateParentLink cfg vault (failOnly q) s f := by
      by_cases hpq : f.path = q
      · apply upl_congr_noattempt
        intro v hd
        by_cases heq : getFM (s f.path) "parent" = some v
        · exact heq
        · exfalso
          apply hno1
          have hmem := upl_notice_intro cfg vault (failOnly q) s f v hd heq
            (by simp [failOnly, hpq])
          rw [hpq] at hmem
          exact hmem
      · exact upl_congr_fail cfg vault noFail (failOnly q) s f
          (by simp [noFail, failOnly, hpq])
    simp only [runList]
    rw [hhead, ih _ hno2]

theorem upl_write_notice (cfg : Settings) (vault : List TFile) (q : String)
    (s : MetaState) (file : TFile) (v : String)
    (h : Ev.write q v ∈ (updateParentLink cfg vault (failOnly q) s file).trace) :
    Ev.notice q ∈ (updateParentLink cfg vault (failOnly q) s file).trace := by
  obtain ⟨hp, hd, hne⟩ := upl_write_mem cfg vault (failOnly q) s file q v h
  subst hp
  exact upl_notice_intro cfg vault (failOnly file.path) s file v hd hne
    (by simp [failOnly])

theorem runList_write_notice (cfg : Settings) (vault : List TFile) (q : String) :
    ∀ (fs : List TFile) (s : MetaState),
      1 ≤ countWrites (runList cfg vault (failOnly q) s fs).trace q →
      Ev.notice q ∈ (runList cfg vault (failOnly q) s fs).trace := by
  intro fs
  induction fs with
  | nil => intro s hw; simp [runList, countWrites] at hw
  | cons f fs ih =>
    intro s hw
    simp only [runList] at hw ⊢
    rw [countWrites_append] at hw
    by_cases hh : 1 ≤ countWrites (updateParentLink cfg vault (failOnly q) s f).trace q
    · obtain ⟨v, hv⟩ := countWrites_pos_mem _ q hh
      exact List.mem_append.mpr (Or.inl (upl_write_notice cfg vault q s f v hv))
    · have hrest : 1 ≤ countWrites
          (runList cfg vault (failOnly q)
            (updateParentLink cfg vault (failOnly q) s f).state fs).trace q := by
        omega
      exact List.mem_append.mpr (Or.inr (ih _ hrest))

/-! ## Cascade-level lemmas -/

theorem cascade_eq_loop (cfg : Settings) (vault : List TFile) (failSet : String → Bool)
    (s : MetaState) (folder : TFolder)
    (h : folder.isRoot = true ∨ vault.find? (folderNotePred folder) = none) :
    handleFolderRename cfg vault failSet s folder =
      runList cfg vault failSet s (vault.filter (cascadePred folder)) := by
  unfold handleFolderRename
  rcases h with hroot | hfn
  · rw [hroot]; rfl
  · cases hroot : folder.isRoot with
    | true => rfl
    | false => rw [hfn]; rfl

theorem cascade_eq_fn (cfg : Settings) (vault : List TFile) (failSet : String → Bool)
    (s : MetaState) (folder : TFolder) (fn : TFile)
    (hroot : folder.isRoot = false)
    (hfn : vault.find? (folderNotePred folder) = some fn) :
    handleFolderRename cfg vault failSet s folder =
      ⟨(updateParentLink cfg vault failSet
          (runList cfg vault failSet s (vault.filter (cascadePred folder))).state fn).state,
        (runList cfg vault failSet s (vault.filter (cascadePred folder))).trace ++
          (updateParentLink cfg vault failSet
            (runList cfg vault failSet s (vault.filter (cascadePred folder))).state fn).trace⟩ := by
  unfold handleFolderRename
  rw [hroot, hfn]
  rfl

theorem cascade_calls (cfg : Settings) (vault : List TFile) (failSet : String → Bool)
    (s : MetaState) (folder : TFolder) :
    callsOf (handleFolderRename cfg vault failSet s folder).trace =
      cascadeCallsSpec vault folder := by
  unfold cascadeCallsSpec
  cases hroot : folder.isRoot with
  | true =>
    rw [cascade_eq_loop cfg vault failSet s folder (Or.inl hroot)]
    simp [runList_trace_calls]
  | false =>
    cases hfn : vault.find? (folderNotePred folder) with
    | none =>
      rw [cascade_eq_loop cfg vault failSet s folder (Or.inr hfn)]
      simp [runList_trace_calls]
    | some fn =>
      rw [cascade_eq_fn cfg vault failSet s folder fn hroot hfn]
      simp [callsOf_append, runList_trace_calls, upl_calls]

theorem cascade_state_q_fail (cfg : Settings) (vault : List TFile) (q : String)
    (s : MetaState) (folder : TFolder) :
    (handleFolderRename cfg vault (failOnly q) s folder).state q = s q := by
  cases hroot : folder.isRoot with
  | true =>
    rw [cascade_eq_loop cfg vault (failOnly q) s folder (Or.inl hroot)]
    exact runList_failq_state_q cfg vault q _ s
  | false =>
    cases hfn : vault.find? (folderNotePred folder) with
    | none =>
      rw [cascade_eq_loop cfg vault (failOnly q) s folder (Or.inr hfn)]
      exact runList_failq_state_q cfg vault q _ s
    | some fn =>
      rw [cascade_eq_fn cfg vault (failOnly q) s folder fn hroot hfn]
      dsimp only
      by_cases hpq : fn.path = q
      · rw [upl_state_fail cfg vault (failOnly q) _ fn (by simp [failOnly, hpq])]
        exact runList_failq_state_q cfg vault q _ s
      · rw [upl_state_frame cfg vault (failOnly q) _ fn q (fun hc => hpq hc.symm)]
        exact runList_failq_state_q cfg vault q _ s

theorem cascade_agree (cfg : Settings) (vault : List TFile) (q : String)
    (s : MetaState) (folder : TFolder) (p : String) (hp : p ≠ q) :
    (handleFolderRename cfg vault (failOnly q) s folder).state p =
      (handleFolderRename cfg vault noFail s folder).state p := by
  have hloop := runList_agree cfg vault q (vault.filter (cascadePred folder)) s s
    (fun _ _ => rfl)
  cases hroot : folder.isRoot with
  | true =>
    rw [cascade_eq_loop cfg vault (failOnly q) s folder (Or.inl hroot),
      cascade_eq_loop cfg vault noFail s folder (Or.inl hroot)]
    exact hloop p hp
  | false =>
    cases hfn : vault.find? (folderNotePred folder) with
    | none =>
      rw [cascade_eq_loop cfg vault (failOnly q) s folder (Or.inr hfn),
        cascade_eq_loop cfg vault noFail s folder (Or.inr hfn)]
      exact hloop p hp
    | some fn =>
      rw [cascade_eq_fn cfg vault (failOnly q) s folder fn hroot hfn,
        cascade_eq_fn cfg vault noFail s folder fn hroot hfn]
      dsimp only
      by_cases hpf : p = fn.path
      · subst hpf
        have hfe : failOnly q fn.path = noFail fn.path := by
          simp only [failOnly, noFail, beq_eq_false_iff_ne, ne_eq]
          exact fun hc => hp (hc ▸ rfl)
        rw [upl_congr_fail cfg vault (failOnly q) noFail _ fn hfe]
        exact upl_state_local_self cfg vault noFail fn _ _ (hloop fn.path hp)
      · rw [upl_state_frame cfg vault (failOnly q) _ fn p hpf,
          upl_state_frame cfg vault noFail _ fn p hpf]
        exact hloop p hp

theorem cascade_notice_only (cfg : Settings) (vault : List TFile) (q : String)
    (s : MetaState) (folder : TFolder) (m : String)
    (h : Ev.notice m ∈ (handleFolderRename cfg vault (failOnly q) s folder).trace) :
    m = q := by
  have hloopcase : ∀ (s2 : MetaState) (fs : List TFile),
      Ev.notice m ∈ (runList cfg vault (failOnly q) s2 fs).trace → m = q := by
    intro s2 fs hm
    obtain ⟨f, _, h1, h2⟩ := runList_notice_mem cfg vault (failOnly q) fs s2 m hm
    have hfq : f.path = q := by simpa [failOnly] using h2
    rw [h1, hfq]
  cases hroot : folder.isRoot with
  | true =>
    rw [cascade_eq_loop cfg vault (failOnly q) s folder (Or.inl hroot)] at h
    exact hloopcase _ _ h
  | false =>
    cases hfn : vault.find? (folderNotePred folder) with
    | none =>
      rw [cascade_eq_loop cfg vault (failOnly q) s folder (Or.inr hfn)] at h
      exact hloopcase _ _ h
    | some fn =>
      rw [cascade_eq_fn cfg vault (failOnly q) s folder fn hroot hfn] at h
      dsimp only at h
      rcases List.mem_append.mp h with h1 | h2
      · exact hloopcase _ _ h1
      · obtain ⟨h1, h2⟩ := upl_notice_mem cfg vault (failOnly q) _ fn m h2
        have hfq : fn.path = q := by simpa [failOnly] using h2
        rw [h1, hfq]

theorem cascade_no_notice_eq (cfg : Settings) (vault : List TFile) (q : String)
    (s : MetaState) (folder : TFolder)
    (hno : Ev.notice q ∉ (handleFolderRename cfg vault (failOnly q) s folder).trace) :
    handleFolderRename cfg vault noFail s folder =
      handleFolderRename cfg vault (failOnly q) s folder := by
  cases hroot : folder.isRoot with
  | true =>
    rw [cascade_eq_loop cfg vault (failOnly q) s folder (Or.inl hroot)] at hno
    rw [cascade_eq_loop cfg vault (failOnly q) s folder (Or.inl hroot),
      cascade_eq_loop cfg vault noFail s folder (Or.inl hroot)]
    exact runList_no_notice_eq cfg vault q _ s hno
  | false =>
    cases hfn : vault.find? (folderNotePred folder) with
    | none =>
      rw [cascade_eq_loop cfg vault (failOnly q) s folder (Or.inr hfn)] at hno
      rw [cascade_eq_loop cfg vault (failOnly q) s folder (Or.inr hfn),
        cascade_eq_loop cfg vault noFail s folder (Or.inr hfn)]
      exact runList_no_notice_eq cfg vault q _ s hno
    | some fn =>
      rw [cascade_eq_fn cfg vault (failOnly q) s folder fn hroot hfn] at hno
      dsimp only at hno
      rw [cascade_eq_fn cfg vault (failOnly q) s folder fn hroot hfn,
        cascade_eq_fn cfg vault noFail s folder fn hroot hfn]
      have hnoL : Ev.notice q ∉
          (runList cfg vault (failOnly q) s (vault.filter (cascadePred folder))).trace := by
        intro hm
        exact hno (List.mem_append.mpr (Or.inl hm))
      have hnoP : Ev.notice q ∉
          (updateParentLink cfg vault (failOnly q)
            (runList cfg vault (failOnly q) s (vault.filter (cascadePred folder))).state
            fn).trace := by
        intro hm
        exact hno (List.mem_append.mpr (Or.inr hm))
      have hloopeq := runList_no_notice_eq cfg vault q (vault.filter (cascadePred folder)) s hnoL
      have hpost : updateParentLink cfg vault noFail
          (runList cfg vault (failOnly q) s (vault.filter (cascadePred folder))).state fn =
          updateParentLink cfg vault (failOnly q)
            (runList cfg vault (failOnly q) s (vault.filter (cascadePred folder))).state fn := by
        by_cases hpq : fn.path = q
        · apply upl_congr_noattempt
          intro v hd
          by_cases heq : getFM
              ((runList cfg vault (failOnly q) s (vault.filter (cascadePred folder))).state
                fn.path) "parent" = some v
          · exact heq
          · exfalso
            apply hnoP
            have hmem := upl_notice_intro cfg vault (failOnly q) _ fn v hd heq
              (by simp [failOnly, hpq])
            rw [hpq] at hmem
            exact hmem
        · exact upl_congr_fail cfg vault noFail (failOnly q) _ fn
            (by simp [noFail, failOnly, hpq])
      rw [hloopeq, hpost]

theorem cascade_fail_write_notice (cfg : Settings) (vault : List TFile) (q : String)
    (s : MetaState) (folder : TFolder)
    (hw : 1 ≤ countWrites (handleFolderRename cfg vault (failOnly q) s folder).trace q) :
    Ev.notice q ∈ (handleFolderRename cfg vault (failOnly q) s folder).trace := by
  cases hroot : folder.isRoot with
  | true =>
    rw [cascade_eq_loop cfg vault (failOnly q) s folder (Or.inl hroot)] at hw ⊢
    exact runList_write_notice cfg vault q _ s hw
  | false =>
    cases hfn : vault.find? (folderNotePred folder) with
    | none =>
      rw [cascade_eq_loop cfg vault (failOnly q) s folder (Or.inr hfn)] at hw ⊢
      exact runList_write_notice cfg vault q _ s hw
    | some fn =>
      rw [cascade_eq_fn cfg vault (failOnly q) s folder fn hroot hfn] at hw ⊢
      dsimp only at hw ⊢
      rw [countWrites_append] at hw
      by_cases hh : 1 ≤ countWrites
          (runList cfg vault (failOnly q) s (vault.filter (cascadePred folder))).trace q
      · exact List.mem_append.mpr (Or.inl (runList_write_notice cfg vault q _ s hh))
      · have hpp : 1 ≤ countWrites
            (updateParentLink cfg vault (failOnly q)
              (runList cfg vault (failOnly q) s (vault.filter (cascadePred folder))).state
              fn).trace q := by
          omega
        obtain ⟨v, hv⟩ := countWrites_pos_mem _ q hpp
        exact List.mem_append.mpr (Or.inr (upl_write_notice cfg vault q _ fn v hv))

theorem cascade_write_notice (cfg : Settings) (vault : List TFile) (q : String)
    (s : MetaState) (folder : TFolder)
    (hw : 1 ≤ countWrites (handleFolderRename cfg vault noFail s folder).trace q) :
    Ev.notice q ∈ (handleFolderRename cfg vault (failOnly q) s folder).trace := by
  by_contra hno
  have heq := cascade_no_notice_eq cfg vault q s folder hno
  rw [heq] at hw
  exact hno (cascade_fail_write_notice cfg vault q s folder hw)

/-! ## Exactly-once write accounting for a cascade -/

theorem upl_countWrites_le_one (cfg : Settings) (vault : List TFile)
    (failSet : String → Bool) (s : MetaState) (file : TFile) (p : String) :
    countWrites (updateParentLink cfg vault failSet s file).trace p ≤ 1 := by
  by_cases hp : p = file.path
  · subst hp
    rw [upl_countWrites_self]
    cases desiredValue cfg vault file with
    | none => simp
    | some v =>
      by_cases heq : getFM (s file.path) "parent" = some v
      · simp [heq]
      · simp [heq]
  · rw [upl_countWrites_ne cfg vault failSet s file p hp]
    omega

theorem filter_paths_nodup (vault : List TFile) (pred : TFile → Bool)
    (hnd : (vault.map TFile.path).Nodup) :
    ((vault.filter pred).map TFile.path).Nodup :=
  hnd.sublist (List.Sublist.map TFile.path (List.filter_sublist vault))

theorem cascade_countWrites_mem (cfg : Settings) (vault : List TFile)
    (failSet : String → Bool) (s : MetaState) (folder : TFolder) (f : TFile)
    (hnd : (vault.map TFile.path).Nodup)
    (hfail : ∀ p, failSet p = false)
    (hf : f ∈ vault.filter (cascadePred folder)) :
    countWrites (handleFolderRename cfg vault failSet s folder).trace f.path =
      countWrites (updateParentLink cfg vault failSet s f).trace f.path := by
  have hndf : ((vault.filter (cascadePred folder)).map TFile.path).Nodup :=
    filter_paths_nodup vault (cascadePred folder) hnd
  have hloop := runList_countWrites_mem cfg vault failSet
    (vault.filter (cascadePred folder)) s f hndf hf
  cases hroot : folder.isRoot with
  | true =>
    rw [cascade_eq_loop cfg vault failSet s folder (Or.inl hroot)]
    exact hloop
  | false =>
    cases hfn : vault.find? (folderNotePred folder) with
    | none =>
      rw [cascade_eq_loop cfg vault failSet s folder (Or.inr hfn)]
      exact hloop
    | some fn =>
      rw [cascade_eq_fn cfg vault failSet s folder fn hroot hfn]
      dsimp only
      rw [countWrites_append, hloop]
      suffices h0 : countWrites (updateParentLink cfg vault failSet
          (runList cfg vault failSet s (vault.filter (cascadePred folder))).state fn).trace
          f.path = 0 by omega
      by_cases hpf : fn.path = f.path
      · have hfv : f ∈ vault := (List.mem_filter.mp hf).1
        have hfnv : fn ∈ vault := List.mem_of_find?_eq_some hfn
        have hfnf : fn = f := List.inj_on_of_nodup_map hnd hfnv hfv hpf
        subst hfnf
        cases hd : desiredValue cfg vault fn with
        | none => rw [upl_countWrites_self, hd]
        | some v =>
          have hpost : getFM ((runList cfg vault failSet s
              (vault.filter (cascadePred folder))).state fn.path) "parent" = some v := by
            rw [runList_state_mem cfg vault failSet _ s fn hndf hf]
            exact upl_post cfg vault failSet s fn v hd (hfail fn.path)
          rw [upl_countWrites_self, hd]
          simp [hpost]
      · exact upl_countWrites_ne cfg vault failSet _ fn f.path
          (fun hc => hpf hc.symm)

theorem cascade_countWrites_le_one (cfg : Settings) (vault : List TFile)
    (failSet : String → Bool) (s : MetaState) (folder : TFolder) (p : String)
    (hnd : (vault.map TFile.path).Nodup)
    (hfail : ∀ p2, failSet p2 = false) :
    countWrites (handleFolderRename cfg vault failSet s folder).trace p ≤ 1 := by
  by_cases hp : p ∈ (vault.filter (cascadePred folder)).map TFile.path
  · obtain ⟨f, hf, hfp⟩ := List.mem_map.mp hp
    subst hfp
    rw [cascade_countWrites_mem cfg vault failSet s folder f hnd hfail hf]
    exact upl_countWrites_le_one cfg vault failSet s f f.path
  · have hloop0 : countWrites (runList cfg vault failSet s
        (vault.filter (cascadePred folder))).trace p = 0 :=
      runList_countWrites_notmem cfg vault failSet _ s p hp
    cases hroot : folder.isRoot with
    | true =>
      rw [cascade_eq_loop cfg vault failSet s folder (Or.inl hroot), hloop0]
      omega
    | false =>
      cases hfn : vault.find? (folderNotePred folder) with
      | none =>
        rw [cascade_eq_loop cfg vault failSet s folder (Or.inr hfn), hloop0]
        omega
      | some fn =>
        rw [cascade_eq_fn cfg vault failSet s folder fn hroot hfn]
        dsimp only
        rw [countWrites_append, hloop0]
        have := upl_countWrites_le_one cfg vault failSet
          (runList cfg vault failSet s (vault.filter (cascadePred folder))).state fn p
        omega

/-! ## First-match characterization of the linear search -/

/-- a is the first element of l satisfying the boolean predicate p:
everything strictly before it fails p. -/
def isFirstMatch {α : Type} (l : List α) (p : α → Bool) (a : α) : Prop :=
  ∃ l1 l2, l = l1 ++ a :: l2 ∧ p a = true ∧ ∀ b ∈ l1, p b = false

theorem find?_iff_firstMatch {α : Type} (l : List α) (p : α → Bool) (a : α) :
    l.find? p = some a ↔ isFirstMatch l p a := by
  induction l with
  | nil =>
    simp only [List.find?_nil, isFirstMatch]
    constructor
    · intro h; cases h
    · rintro ⟨l1, l2, h, -, -⟩
      exact absurd h (by simp)
  | cons x xs ih =>
    cases hx : p x with
    | true =>
      rw [List.find?_cons_of_pos _ hx]
      constructor
      · intro h
        have hxa : x = a := by injection h
        subst hxa
        exact ⟨[], xs, rfl, hx, by simp⟩
      · rintro ⟨l1, l2, hsplit, hpa, hbefore⟩
        cases l1 with
        | nil =>
          rw [List.nil_append] at hsplit
          have hxa : x = a := by injection hsplit
          rw [hxa]
        | cons y l1r =>
          rw [List.cons_append] at hsplit
          have hxy : x = y := by injection hsplit
          have hpy : p y = false := hbefore y (List.mem_cons_self _ _)
          rw [← hxy, hx] at hpy
          cases hpy
    | false =>
      rw [List.find?_cons_of_neg _ (by simp [hx])]
      rw [ih]
      constructor
      · rintro ⟨l1, l2, hsplit, hpa, hbefore⟩
        refine ⟨x :: l1, l2, by rw [hsplit]; rfl, hpa, ?_⟩
        intro b hb
        rcases List.mem_cons.mp hb with rfl | hb2
        · exact hx
        · exact hbefore b hb2
      · rintro ⟨l1, l2, hsplit, hpa, hbefore⟩
        cases l1 with
        | nil =>
          rw [List.nil_append] at hsplit
          have hxa : x = a := by injection hsplit
          rw [hxa] at hx
          rw [hx] at hpa
          cases hpa
        | cons y l1r =>
          rw [List.cons_append] at hsplit
          have hxs : xs = l1r ++ a :: l2 := by injection hsplit
          refine ⟨l1r, l2, hxs, hpa, ?_⟩
          intro b hb
          exact hbefore b (List.mem_cons_of_mem _ hb)

/-- a is the first element of l satisfying the predicate P (Prop form). -/
def isFirstSpec {α : Type} (l : List α) (P : α → Prop) (a : α) : Prop :=
  ∃ l1 l2, l = l1 ++ a :: l2 ∧ P a ∧ ∀ b ∈ l1, ¬ P b

theorem isFirstMatch_iff_isFirstSpec {α : Type} (l : List α) (p : α → Bool) (P : α → Prop)
    (h : ∀ a, p a = true ↔ P a) (a : α) :
    isFirstMatch l p a ↔ isFirstSpec l P a := by
  unfold isFirstMatch isFirstSpec
  constructor
  · rintro ⟨l1, l2, hs, hp, hb⟩
    refine ⟨l1, l2, hs, (h a).mp hp, fun b hbm hPb => ?_⟩
    have hc := (h b).mpr hPb
    rw [hb b hbm] at hc
    cases hc
  · rintro ⟨l1, l2, hs, hP, hb⟩
    refine ⟨l1, l2, hs, (h a).mpr hP, fun b hbm => ?_⟩
    cases hpb : p b with
    | false => rfl
    | true => exact absurd ((h b).mp hpb) (hb b hbm)

/-! ## Substring test for the first-occurrence removal -/

/-- Whether ".md" occurs anywhere in a character list. -/
def hasMdInfixList : List Char → Bool
  | [] => false
  | c :: cs => mdPat.isPrefixOf (c :: cs) || hasMdInfixList cs

/-- Whether ".md" occurs anywhere in a string. -/
def hasMdInfix (s : String) : Bool := hasMdInfixList s.data

theorem removeFirstOcc_append_md (b : List Char) (h : hasMdInfixList b = false) :
    removeFirstOcc (b ++ mdPat) = b := by
  induction b with
  | nil => rfl
  | cons c cs ih =>
    have h1 : mdPat.isPrefixOf (c :: cs) = false := by
      cases hp : mdPat.isPrefixOf (c :: cs) with
      | true => rw [hasMdInfixList, hp] at h; simp at h
      | false => rfl
    have h2 : hasMdInfixList cs = false := by
      rw [hasMdInfixList] at h
      exact (Bool.or_eq_false_iff.mp h).2
    have h3 : mdPat.isPrefixOf (c :: (cs ++ mdPat)) = false := by
      cases cs with
      | nil => simp [mdPat, List.isPrefixOf]
      | cons x cs2 =>
        cases cs2 with
        | nil => simp [mdPat, List.isPrefixOf]
        | cons y zs =>
          simp only [mdPat, List.isPrefixOf, List.cons_append] at h1 ⊢
          simpa using h1
    rw [List.cons_append, removeFirstOcc]
    simp only [h3, Bool.false_eq_true, if_false]
    rw [ih h2]

/-! ## Concrete fixtures used by the witnesses and counterexamples -/

def cfgNone : Settings := ⟨true, false, none, []⟩

def cfgAllowed : Settings := ⟨true, false, none, ["Allowed"]⟩

def emptyMS : MetaState := fun _ => []

def folA : TFolder := ⟨"A", "A", none, false⟩

def fnA : TFile := ⟨"A/A.md", "A.md", "A", some folA⟩

def noteA : TFile := ⟨"A/Note.md", "Note.md", "Note", some folA⟩

def vaultA : List TFile := [fnA, noteA]

def refP : FolderRef := ⟨"P", "P"⟩

def folP : TFolder := ⟨"P", "P", none, false⟩

def folC : TFolder := ⟨"P/C", "C", some refP, false⟩

def fnP : TFile := ⟨"P/P.md", "P.md", "P", some folP⟩

def fnC : TFile := ⟨"P/C/C.md", "C.md", "C", some folC⟩

def vaultPC : List TFile := [fnP, fnC]

def folPro : TFolder := ⟨"Projects", "Projects", none, false⟩

def fnPro : TFile := ⟨"Projects/Projects.md", "Projects.md", "Projects", some folPro⟩

def fnProUp : TFile := ⟨"Projects/PROJECTS.md", "PROJECTS.md", "PROJECTS", some folPro⟩

def vaultPro : List TFile := [fnPro, fnProUp]

def noteTask : TFile := ⟨"Projects/Task.md", "Task.md", "Task", some folPro⟩

def vaultTask : List TFile := [fnPro, noteTask]

def folAl : TFolder := ⟨"Allowed", "Allowed", none, false⟩

def folDis : TFolder := ⟨"Disallowed", "Disallowed", none, false⟩

def fnAl : TFile := ⟨"Allowed/Allowed.md", "Allowed.md", "Allowed", some folAl⟩

def noteAl : TFile := ⟨"Allowed/Note.md", "Note.md", "Note", some folAl⟩

def fnDis : TFile := ⟨"Disallowed/Disallowed.md", "Disallowed.md", "Disallowed", some folDis⟩

def noteDis : TFile := ⟨"Disallowed/Note.md", "Note.md", "Note", some folDis⟩

def vaultAllow : List TFile := [fnAl, noteAl, fnDis, noteDis]

def folMd : TFolder := ⟨"foo.mdbar", "foo.mdbar", none, false⟩

def fnMd : TFile := ⟨"foo.mdbar/foo.mdbar.md", "foo.mdbar.md", "foo.mdbar", some folMd⟩

def noteMd : TFile := ⟨"foo.mdbar/Note.md", "Note.md", "Note", some folMd⟩

def vaultMd : List TFile := [fnMd, noteMd]

def rootFile : TFile := ⟨"Root.md", "Root.md", "Root", none⟩

/-! ## Claim theorems -/

/-- Claim C1: calling updateParentLink a second time immediately after a first
call, on the same tree snapshot with the writer succeeding for this document,
invokes the metadata writer zero times on the second call and leaves the
metadata state exactly as it was after the first call. -/
theorem c1_idempotence (cfg : Settings) (vault : List TFile) (failSet : String → Bool)
    (s : MetaState) (d : TFile) (hfail : failSet d.path = false) :
    (updateParentLink cfg vault failSet
        (updateParentLink cfg vault failSet s d).state d).state =
      (updateParentLink cfg vault failSet s d).state ∧
    ∀ p v, Ev.write p v ∉
      (updateParentLink cfg vault failSet
        (updateParentLink cfg vault failSet s d).state d).trace := by
  cases hd : desiredValue cfg vault d with
  | none =>
    constructor
    · rw [upl_state_eq cfg vault failSet _ d, hd]
    · intro p v hmem
      rw [upl_trace_eq cfg vault failSet _ d, hd] at hmem
      simp at hmem
  | some v =>
    have hpost2 : getFM ((updateParentLink cfg vault failSet s d).state d.path)
        "parent" = some v :=
      upl_post cfg vault failSet s d v hd hfail
    constructor
    · rw [upl_state_eq cfg vault failSet _ d, hd]
      simp [hpost2]
    · intro p v2 hmem
      rw [upl_trace_eq cfg vault failSet _ d, hd] at hmem
      simp [hpost2] at hmem

theorem c1_idempotence_witness :
    noFail noteA.path = false ∧
    ((updateParentLink cfgNone vaultA noFail
        (updateParentLink cfgNone vaultA noFail emptyMS noteA).state noteA).state =
      (updateParentLink cfgNone vaultA noFail emptyMS noteA).state ∧
    ∀ p v, Ev.write p v ∉
      (updateParentLink cfgNone vaultA noFail
        (updateParentLink cfgNone vaultA noFail emptyMS noteA).state noteA).trace) :=
  ⟨rfl, c1_idempotence cfgNone vaultA noFail emptyMS noteA rfl⟩

/-- Claim C3: an empty allow-list never gates a document; a non-empty
allow-list lets updateParentLink proceed exactly when the document path or the
containing-folder path starts with some entry; and a gated document keeps its
metadata unchanged with no writer invocation. -/
theorem c3_allowlist_gating (cfg : Settings) (vault : List TFile) (failSet : String → Bool)
    (s : MetaState) (d : TFile) :
    (cfg.allowedPaths = [] →
      (updateParentLink cfg vault failSet s d).outcome ≠ Outcome.notAllowed) ∧
    (cfg.allowedPaths ≠ [] →
      ((updateParentLink cfg vault failSet s d).outcome ≠ Outcome.notAllowed ↔
        ∃ ap ∈ cfg.allowedPaths, jsStartsWith d.path ap = true ∨
          jsStartsWith ((d.parent.map TFolder.path).getD "") ap = true)) ∧
    (cfg.allowedPaths ≠ [] →
      (¬ ∃ ap ∈ cfg.allowedPaths, jsStartsWith d.path ap = true ∨
          jsStartsWith ((d.parent.map TFolder.path).getD "") ap = true) →
      (updateParentLink cfg vault failSet s d).state = s ∧
        ∀ p v, Ev.write p v ∉ (updateParentLink cfg vault failSet s d).trace) := by
  have hbridge : isAllowedPath cfg.allowedPaths d = true ↔
      ∃ ap ∈ cfg.allowedPaths, jsStartsWith d.path ap = true ∨
        jsStartsWith ((d.parent.map TFolder.path).getD "") ap = true := by
    simp [isAllowedPath, List.any_eq_true]
  refine ⟨?_, ?_, ?_⟩
  · intro hempty
    rw [Ne, upl_outcome_notAllowed_iff]
    simp [hempty]
  · intro hne
    rw [Ne, upl_outcome_notAllowed_iff]
    have hlen : decide (cfg.allowedPaths.length > 0) = true := by
      simp [List.length_pos, hne]
    rw [hlen, ← hbridge]
    simp
  · intro hne hnex
    have hallow : isAllowedPath cfg.allowedPaths d = false := by
      cases hx : isAllowedPath cfg.allowedPaths d with
      | true => exact absurd (hbridge.mp hx) hnex
      | false => rfl
    have hlen : decide (cfg.allowedPaths.length > 0) = true := by
      simp [List.length_pos, hne]
    have hgate : (decide (cfg.allowedPaths.length > 0) &&
        !isAllowedPath cfg.allowedPaths d) = true := by
      rw [hlen, hallow]
      rfl
    have hd : desiredValue cfg vault d = none := by
      unfold desiredValue
      rw [hgate]
      simp
    constructor
    · rw [upl_state_eq, hd]
    · intro p v hmem
      rw [upl_trace_eq, hd] at hmem
      simp at hmem

theorem c3_allowlist_gating_witness :
    cfgAllowed.allowedPaths ≠ [] ∧
    (¬ ∃ ap ∈ cfgAllowed.allowedPaths, jsStartsWith noteDis.path ap = true ∨
        jsStartsWith ((noteDis.parent.map TFolder.path).getD "") ap = true) ∧
    ((updateParentLink cfgAllowed vaultAllow noFail emptyMS noteDis).state = emptyMS ∧
      ∀ p v, Ev.write p v ∉
        (updateParentLink cfgAllowed vaultAllow noFail emptyMS noteDis).trace) :=
  ⟨by decide, by decide,
    (c3_allowlist_gating cfgAllowed vaultAllow noFail emptyMS noteDis).2.2
      (by decide) (by decide)⟩

/-- Claim C4: when the document base name equals the containing folder name
only up to case (not exactly), updateParentLink keeps the state unchanged,
leaves the parent field as it was, and never invokes the writer. -/
theorem c4_case_mismatch (cfg : Settings) (vault : List TFile) (failSet : String → Bool)
    (s : MetaState) (d : TFile) (pf : TFolder)
    (hparent : d.parent = some pf)
    (hlow : jsToLower d.basename = jsToLower pf.name)
    (hne : d.basename ≠ pf.name) :
    (updateParentLink cfg vault failSet s d).state = s ∧
    getFM ((updateParentLink cfg vault failSet s d).state d.path) "parent" =
        getFM (s d.path) "parent" ∧
    ∀ p v, Ev.write p v ∉ (updateParentLink cfg vault failSet s d).trace := by
  have hd : desiredValue cfg vault d = none := by
    unfold desiredValue
    cases hgate : (decide (cfg.allowedPaths.length > 0) &&
        !isAllowedPath cfg.allowedPaths d) with
    | true => simp
    | false =>
      have hcond : (jsToLower d.basename == jsToLower pf.name &&
          !(d.basename == pf.name)) = true := by
        simp [hlow, hne]
      simp [hparent, hcond]
  have hstate : (updateParentLink cfg vault failSet s d).state = s := by
    rw [upl_state_eq, hd]
  refine ⟨hstate, by rw [hstate], ?_⟩
  intro p v hmem
  rw [upl_trace_eq, hd] at hmem
  simp at hmem

theorem c4_case_mismatch_witness :
    fnProUp.parent = some folPro ∧
    jsToLower fnProUp.basename = jsToLower folPro.name ∧
    fnProUp.basename ≠ folPro.name ∧
    ((updateParentLink cfgNone vaultPro noFail emptyMS fnProUp).state = emptyMS ∧
      getFM ((updateParentLink cfgNone vaultPro noFail emptyMS fnProUp).state
          fnProUp.path) "parent" = getFM (emptyMS fnProUp.path) "parent" ∧
      ∀ p v, Ev.write p v ∉
        (updateParentLink cfgNone vaultPro noFail emptyMS fnProUp).trace) :=
  ⟨rfl, by decide, by decide,
    c4_case_mismatch cfgNone vaultPro noFail emptyMS fnProUp folPro rfl
      (by decide) (by decide)⟩

/-- Claim C8: a document with no containing folder is always skipped with the
no-parent-folder outcome and no metadata write, for any tree contents,
provided the allow-list does not gate it first. -/
theorem c8_root_documents (cfg : Settings) (vault : List TFile) (failSet : String → Bool)
    (s : MetaState) (d : TFile)
    (hparent : d.parent = none)
    (hallow : cfg.allowedPaths = [] ∨ isAllowedPath cfg.allowedPaths d = true) :
    (updateParentLink cfg vault failSet s d).outcome = Outcome.noParentFolder ∧
    (updateParentLink cfg vault failSet s d).state = s ∧
    ∀ p v, Ev.write p v ∉ (updateParentLink cfg vault failSet s d).trace := by
  have hgate : (decide (cfg.allowedPaths.length > 0) &&
      !isAllowedPath cfg.allowedPaths d) = false := by
    rcases hallow with h | h
    · simp [h]
    · simp [h]
  have hd : desiredValue cfg vault d = none := by
    unfold desiredValue
    rw [hgate]
    simp [hparent]
  refine ⟨?_, ?_, ?_⟩
  · unfold updateParentLink
    rw [hgate]
    simp [hparent]
  · rw [upl_state_eq, hd]
  · intro p v hmem
    rw [upl_trace_eq, hd] at hmem
    simp at hmem

theorem c8_root_documents_witness :
    rootFile.parent = none ∧
    (cfgNone.allowedPaths = [] ∨ isAllowedPath cfgNone.allowedPaths rootFile = true) ∧
    ((updateParentLink cfgNone vaultA noFail emptyMS rootFile).outcome =
        Outcome.noParentFolder ∧
      (updateParentLink cfgNone vaultA noFail emptyMS rootFile).state = emptyMS ∧
      ∀ p v, Ev.write p v ∉
        (updateParentLink cfgNone vaultA noFail emptyMS rootFile).trace) :=
  ⟨rfl, Or.inl rfl,
    c8_root_documents cfgNone vaultA noFail emptyMS rootFile rfl (Or.inl rfl)⟩

/-- Claim C10: every invocation of updateParentLink either leaves the whole
metadata state untouched, or changes exactly the parent key of exactly this
document, leaving every other key of this document and every other document
unchanged. -/
theorem c10_frame (cfg : Settings) (vault : List TFile) (failSet : String → Bool)
    (s : MetaState) (d : TFile) :
    (updateParentLink cfg vault failSet s d).state = s ∨
    ∃ v, (∀ p, p ≠ d.path → (updateParentLink cfg vault failSet s d).state p = s p) ∧
      (∀ k, k ≠ "parent" →
        getFM ((updateParentLink cfg vault failSet s d).state d.path) k =
          getFM (s d.path) k) ∧
      getFM ((updateParentLink cfg vault failSet s d).state d.path) "parent" = some v := by
  cases hd : desiredValue cfg vault d with
  | none =>
    left
    rw [upl_state_eq, hd]
  | some v =>
    by_cases heq : getFM (s d.path) "parent" = some v
    · left
      rw [upl_state_eq, hd]
      simp [heq]
    · cases hfail : failSet d.path with
      | true => exact Or.inl (upl_state_fail cfg vault failSet s d hfail)
      | false =>
        right
        refine ⟨v, ?_, ?_, upl_post cfg vault failSet s d v hd hfail⟩
        · intro p hp
          exact upl_state_frame cfg vault failSet s d p hp
        · intro k hk
          rw [upl_state_eq, hd]
          simp only [heq, hfail, if_false, Bool.false_eq_true, writeState_self]
          exact getFM_setFM_ne _ _ _ _ hk

/-! ## Claim C2: the search predicates stated as the specification words them -/

/-- The matching condition the specification states for a candidate parent
note of a folder note: base name equal to the grandparent folder name, containing-folder
path equal to the grandparent folder path, and a different document. -/
def specMatchesRef (target : FolderRef) (d f : TFile) : Prop :=
  f.basename = target.name ∧ (f.parent.map TFolder.path) = some target.path ∧ f ≠ d

/-- The matching condition the specification states for a candidate parent
note of a regular document against its containing folder. -/
def specMatchesFolder (target : TFolder) (d f : TFile) : Prop :=
  f.basename = target.name ∧ (f.parent.map TFolder.path) = some target.path ∧ f ≠ d

theorem gpPred_iff (gp : FolderRef) (d f : TFile) :
    ((f.basename == gp.name &&
      (match f.parent with
       | some pf2 => pf2.path == gp.path
       | none => false) &&
      !(decide (f = d))) = true) ↔ specMatchesRef gp d f := by
  cases hp : f.parent with
  | none => simp [specMatchesRef, hp]
  | some pf2 => simp [specMatchesRef, hp, and_assoc]

theorem folderPred_iff (target : TFolder) (d f : TFile) :
    ((f.basename == target.name &&
      (match f.parent with
       | some pf2 => pf2.path == target.path
       | none => false) &&
      !(decide (f = d))) = true) ↔ specMatchesFolder target d f := by
  cases hp : f.parent with
  | none => simp [specMatchesFolder, hp]
  | some pf2 => simp [specMatchesFolder, hp, and_assoc]

/-- Claim C2: for a folder note whose folder has a grandparent, the resolved
parent note is the first vault document matching the grandparent folder; for a
regular document (no case near-miss) it is the first vault document matching
the containing folder; and a none result means no document matches. -/
theorem c2_parent_targeting (vault : List TFile) (d : TFile) (pf : TFolder)
    (hparent : d.parent = some pf) :
    (d.basename = pf.name →
      ∀ gp, pf.parentRef = some gp →
        ((∀ f, findParentNote vault d pf = some f →
            isFirstSpec vault (specMatchesRef gp d) f) ∧
         (findParentNote vault d pf = none → ∀ f ∈ vault, ¬ specMatchesRef gp d f))) ∧
    (d.basename ≠ pf.name → jsToLower d.basename ≠ jsToLower pf.name →
        ((∀ f, findParentNote vault d pf = some f →
            isFirstSpec vault (specMatchesFolder pf d) f) ∧
         (findParentNote vault d pf = none →
            ∀ f ∈ vault, ¬ specMatchesFolder pf d f))) := by
  constructor
  · intro hfn gp hgp
    have hbeq : (d.basename == pf.name) = true := by simp [hfn]
    have hunf : findParentNote vault d pf =
        vault.find? (fun f =>
          f.basename == gp.name &&
          (match f.parent with
           | some pf2 => pf2.path == gp.path
           | none => false) &&
          !(decide (f = d))) := by
      unfold findParentNote
      rw [hbeq, hgp]
      rfl
    constructor
    · intro f hf
      rw [hunf] at hf
      exact (isFirstMatch_iff_isFirstSpec vault _ _ (fun a => gpPred_iff gp d a) f).mp
        ((find?_iff_firstMatch vault _ f).mp hf)
    · intro hf f hfv
      rw [hunf] at hf
      have hnp := List.find?_eq_none.mp hf f hfv
      intro hspec
      exact hnp ((gpPred_iff gp d f).mpr hspec)
  · intro hne _
    have hbeq : (d.basename == pf.name) = false := by simp [hne]
    have hunf : findParentNote vault d pf =
        vault.find? (fun f =>
          f.basename == pf.name &&
          (match f.parent with
           | some pf2 => pf2.path == pf.path
           | none => false) &&
          !(decide (f = d))) := by
      unfold findParentNote
      rw [hbeq]
      rfl
    constructor
    · intro f hf
      rw [hunf] at hf
      exact (isFirstMatch_iff_isFirstSpec vault _ _ (fun a => folderPred_iff pf d a) f).mp
        ((find?_iff_firstMatch vault _ f).mp hf)
    · intro hf f hfv
      rw [hunf] at hf
      have hnp := List.find?_eq_none.mp hf f hfv
      intro hspec
      exact hnp ((folderPred_iff pf d f).mpr hspec)

theorem c2_parent_targeting_witness :
    fnC.parent = some folC ∧
    ((fnC.basename = folC.name →
      ∀ gp, folC.parentRef = some gp →
        ((∀ f, findParentNote vaultPC fnC folC = some f →
            isFirstSpec vaultPC (specMatchesRef gp fnC) f) ∧
         (findParentNote vaultPC fnC folC = none →
            ∀ f ∈ vaultPC, ¬ specMatchesRef gp fnC f))) ∧
     (fnC.basename ≠ folC.name → jsToLower fnC.basename ≠ jsToLower folC.name →
        ((∀ f, findParentNote vaultPC fnC folC = some f →
            isFirstSpec vaultPC (specMatchesFolder folC fnC) f) ∧
         (findParentNote vaultPC fnC folC = none →
            ∀ f ∈ vaultPC, ¬ specMatchesFolder folC fnC f)))) :=
  ⟨rfl, c2_parent_targeting vaultPC fnC folC rfl⟩

/-- Claim C5: the cascade calls updateParentLink exactly on the prefix-filtered
documents in vault order followed by the folder note (when not at the root),
and with unique paths and a succeeding writer it invokes the metadata writer
at most once per path, exactly once per enumerated document that needs a
change and zero times for one already correct. -/
theorem c5_cascade_exactly_once (cfg : Settings) (vault : List TFile)
    (failSet : String → Bool) (s : MetaState) (folder : TFolder)
    (hnd : (vault.map TFile.path).Nodup)
    (hfail : ∀ p, failSet p = false) :
    callsOf (handleFolderRename cfg vault failSet s folder).trace =
        cascadeCallsSpec vault folder ∧
    (∀ p, countWrites (handleFolderRename cfg vault failSet s folder).trace p ≤ 1) ∧
    (∀ f ∈ vault.filter (cascadePred folder),
      countWrites (handleFolderRename cfg vault failSet s folder).trace f.path =
        match desiredValue cfg vault f with
        | none => 0
        | some v => if getFM (s f.path) "parent" = some v then 0 else 1) := by
  refine ⟨cascade_calls cfg vault failSet s folder,
    fun p => cascade_countWrites_le_one cfg vault failSet s folder p hnd hfail, ?_⟩
  intro f hf
  rw [cascade_countWrites_mem cfg vault failSet s folder f hnd hfail hf,
    upl_countWrites_self]

theorem c5_cascade_exactly_once_witness :
    (vaultA.map TFile.path).Nodup ∧ (∀ p, noFail p = false) ∧
    (callsOf (handleFolderRename cfgNone vaultA noFail emptyMS folA).trace =
        cascadeCallsSpec vaultA folA ∧
      (∀ p, countWrites (handleFolderRename cfgNone vaultA noFail emptyMS folA).trace p ≤ 1) ∧
      (∀ f ∈ vaultA.filter (cascadePred folA),
        countWrites (handleFolderRename cfgNone vaultA noFail emptyMS folA).trace f.path =
          match desiredValue cfgNone vaultA f with
          | none => 0
          | some v => if getFM (emptyMS f.path) "parent" = some v then 0 else 1)) :=
  ⟨by decide, fun _ => rfl,
    c5_cascade_exactly_once cfgNone vaultA noFail emptyMS folA (by decide) (fun _ => rfl)⟩

/-- Claim C6 counterexample: with a target note named "foo.mdbar.md" (whose
base name is "foo.mdbar"), the value written is "[[foobar.md]]" because the
code removes the FIRST occurrence of ".md" from the file name, so it differs
from the claimed wikilink built from the base name. -/
theorem c6_wikilink_counterexample :
    Ev.write noteMd.path "[[foobar.md]]" ∈
      (updateParentLink cfgNone vaultMd noFail emptyMS noteMd).trace ∧
    ("[[foobar.md]]" : String) ≠ "[[" ++ fnMd.basename ++ "]]" := by
  exact ⟨by decide, by decide⟩

/-- Claim C6 amended: every invoked write carries the value built by removing
the first ".md" occurrence from the target note file name; whenever ".md"
occurs in the name only as the final extension, this value coincides with the
base name.  The condition is sufficient, not necessary: a name such as
"a.md.md" (base name "a.md") also reproduces its base name. -/
theorem c6_wikilink_amended (cfg : Settings) (vault : List TFile) (failSet : String → Bool)
    (s : MetaState) (d : TFile) (pf : TFolder) (pn : TFile)
    (hparent : d.parent = some pf)
    (hfind : findParentNote vault d pf = some pn) :
    (∀ p v, Ev.write p v ∈ (updateParentLink cfg vault failSet s d).trace →
        v = "[[" ++ replaceFirstMd pn.name ++ "]]") ∧
    (pn.name = pn.basename ++ ".md" → hasMdInfix pn.basename = false →
        replaceFirstMd pn.name = pn.basename) := by
  constructor
  · intro p v hmem
    obtain ⟨-, hd, -⟩ := upl_write_mem cfg vault failSet s d p v hmem
    unfold desiredValue at hd
    cases hgate : (decide (cfg.allowedPaths.length > 0) &&
        !isAllowedPath cfg.allowedPaths d) with
    | true => rw [hgate] at hd; simp at hd
    | false =>
      rw [hgate] at hd
      simp only [Bool.false_eq_true, if_false] at hd
      rw [hparent] at hd
      by_cases hcase : (jsToLower d.basename == jsToLower pf.name &&
          !(d.basename == pf.name)) = true
      · simp [hcase] at hd
      · simp only [hcase, if_false, Bool.false_eq_true] at hd
        rw [hfind] at hd
        simp only [Option.map_some'] at hd
        injection hd with hd2
        exact hd2.symm
  · intro hname hinfix
    unfold hasMdInfix at hinfix
    unfold replaceFirstMd
    rw [hname]
    have hdata : (pn.basename ++ ".md").data = pn.basename.data ++ mdPat := rfl
    rw [hdata, removeFirstOcc_append_md _ hinfix]

theorem c6_wikilink_amended_witness :
    noteTask.parent = some folPro ∧
    findParentNote vaultTask noteTask folPro = some fnPro ∧
    ((∀ p v, Ev.write p v ∈
          (updateParentLink cfgNone vaultTask noFail emptyMS noteTask).trace →
        v = "[[" ++ replaceFirstMd fnPro.name ++ "]]") ∧
      (fnPro.name = fnPro.basename ++ ".md" → hasMdInfix fnPro.basename = false →
        replaceFirstMd fnPro.name = fnPro.basename)) ∧
    replaceFirstMd fnPro.name = fnPro.basename :=
  ⟨rfl, by decide,
    c6_wikilink_amended cfgNone vaultTask noFail emptyMS noteTask folPro fnPro rfl
      (by decide),
    (c6_wikilink_amended cfgNone vaultTask noFail emptyMS noteTask folPro fnPro rfl
      (by decide)).2 (by decide) (by decide)⟩

/-- Claim C7: when the metadata writer raises for exactly one document path q
that the normal cascade would write, the failing cascade still processes the
same documents in the same order, emits a user-visible notification naming
exactly q, leaves the metadata of q unchanged, and updates every other path
exactly as the failure-free cascade does. -/
theorem c7_write_failure_isolation (cfg : Settings) (vault : List TFile)
    (s : MetaState) (folder : TFolder) (q : String)
    (hw : 1 ≤ countWrites (handleFolderRename cfg vault noFail s folder).trace q) :
    (∀ p, p ≠ q →
        (handleFolderRename cfg vault (failOnly q) s folder).state p =
          (handleFolderRename cfg vault noFail s folder).state p) ∧
    callsOf (handleFolderRename cfg vault (failOnly q) s folder).trace =
        callsOf (handleFolderRename cfg vault noFail s folder).trace ∧
    (∀ m, Ev.notice m ∈ (handleFolderRename cfg vault (failOnly q) s folder).trace →
        m = q) ∧
    Ev.notice q ∈ (handleFolderRename cfg vault (failOnly q) s folder).trace ∧
    (handleFolderRename cfg vault (failOnly q) s folder).state q = s q := by
  refine ⟨fun p hp => cascade_agree cfg vault q s folder p hp, ?_,
    fun m hm => cascade_notice_only cfg vault q s folder m hm,
    cascade_write_notice cfg vault q s folder hw,
    cascade_state_q_fail cfg vault q s folder⟩
  rw [cascade_calls, cascade_calls]

theorem c7_write_failure_isolation_witness :
    1 ≤ countWrites (handleFolderRename cfgNone vaultA noFail emptyMS folA).trace
        noteA.path ∧
    ((∀ p, p ≠ noteA.path →
        (handleFolderRename cfgNone vaultA (failOnly noteA.path) emptyMS folA).state p =
          (handleFolderRename cfgNone vaultA noFail emptyMS folA).state p) ∧
      callsOf (handleFolderRename cfgNone vaultA (failOnly noteA.path) emptyMS folA).trace =
        callsOf (handleFolderRename cfgNone vaultA noFail emptyMS folA).trace ∧
      (∀ m, Ev.notice m ∈
          (handleFolderRename cfgNone vaultA (failOnly noteA.path) emptyMS folA).trace →
        m = noteA.path) ∧
      Ev.notice noteA.path ∈
        (handleFolderRename cfgNone vaultA (failOnly noteA.path) emptyMS folA).trace ∧
      (handleFolderRename cfgNone vaultA (failOnly noteA.path) emptyMS folA).state
          noteA.path = emptyMS noteA.path) :=
  ⟨by decide,
    c7_write_failure_isolation cfgNone vaultA emptyMS folA noteA.path (by decide)⟩

/-- Claim C9 counterexample: a folder note whose folder has no parent folder is
skipped through the generic no-matching-parent-note branch, not the
no-parent-folder branch the claim names. -/
theorem c9_skip_reason_counterexample :
    (updateParentLink cfgNone vaultA noFail emptyMS fnA).outcome =
        Outcome.noMatchingParentNote ∧
    Outcome.noMatchingParentNote ≠ Outcome.noParentFolder := by
  exact ⟨by decide, by decide⟩

/-- Claim C9 amended: a folder note whose containing folder has no parent
folder resolves to a null target and performs no write, but the skip is
reported through the no-matching-parent-note branch (the search is simply
never started, and the code falls into its generic no-match exit), not the
no-parent-folder branch. -/
theorem c9_no_grandparent (cfg : Settings) (vault : List TFile) (failSet : String → Bool)
    (s : MetaState) (d : TFile) (pf : TFolder)
    (hparent : d.parent = some pf)
    (hfn : d.basename = pf.name)
    (hgp : pf.parentRef = none)
    (hallow : cfg.allowedPaths = [] ∨ isAllowedPath cfg.allowedPaths d = true) :
    (updateParentLink cfg vault failSet s d).outcome = Outcome.noMatchingParentNote ∧
    (updateParentLink cfg vault failSet s d).state = s ∧
    ∀ p v, Ev.write p v ∉ (updateParentLink cfg vault failSet s d).trace := by
  have hgate : (decide (cfg.allowedPaths.length > 0) &&
      !isAllowedPath cfg.allowedPaths d) = false := by
    rcases hallow with h | h
    · simp [h]
    · simp [h]
  have hcase : (jsToLower d.basename == jsToLower pf.name &&
      !(d.basename == pf.name)) = false := by
    simp [hfn]
  have hfind : findParentNote vault d pf = none := by
    unfold findParentNote
    simp [hfn, hgp]
  have hd : desiredValue cfg vault d = none := by
    unfold desiredValue
    rw [hgate]
    simp [hparent, hcase, hfind]
  refine ⟨?_, ?_, ?_⟩
  · unfold updateParentLink
    rw [hgate]
    simp [hparent, hcase, hfind]
  · rw [upl_state_eq, hd]
  · intro p v hmem
    rw [upl_trace_eq, hd] at hmem
    simp at hmem

theorem c9_no_grandparent_witness :
    fnA.parent = some folA ∧ fnA.basename = folA.name ∧ folA.parentRef = none ∧
    (cfgNone.allowedPaths = [] ∨ isAllowedPath cfgNone.allowedPaths fnA = true) ∧
    ((updateParentLink cfgNone vaultA noFail emptyMS fnA).outcome =
        Outcome.noMatchingParentNote ∧
      (updateParentLink cfgNone vaultA noFail emptyMS fnA).state = emptyMS ∧
      ∀ p v, Ev.write p v ∉ (updateParentLink cfgNone vaultA noFail emptyMS fnA).trace) :=
  ⟨rfl, rfl, rfl, Or.inl rfl,
    c9_no_grandparent cfgNone vaultA noFail emptyMS fnA folA rfl rfl rfl (Or.inl rfl)⟩

end ParentLink
